import Mathlib

/-!
Shallow embedding of the dnstxtjwt chunk codec (xmidt-org/dnstxtjwt).

The Go sources embedded here:
* `reassemble.go`: `reassemble`, `getIndexInt` (decoder)
* the chunk splitter `create.split` and `CreateRecord` (encoder), together
  with the option clamps `WithMaxLineLength` / `WithMaxSize`.

Strings are modelled as `List Char` (Go strings restricted to well-formed
UTF-8; all positive encoder theorems additionally carry an ASCII hypothesis
so that Go's byte-oriented slicing coincides with rune-oriented slicing).
Go's `int` is modelled as `Int` with an explicit wrap at 64 bits where
overflow is reachable (`getIndexInt`'s accumulator).  Go's `map[int]string`
only ever holds non-negative keys, so it is modelled as an association list
with `Nat` keys, insert-overwrite semantics and `length` = number of keys.
Code that can panic or diverge (the splitter with a tiny line budget) is
modelled with fuel, returning `none` on a panic or on fuel exhaustion.
-/

/-- Two to the 63rd, as an `Int` literal (Go's `int` is 64-bit signed). -/
def two63 : Int := 9223372036854775808

/-- Two to the 64th, as an `Int` literal. -/
def two64 : Int := 18446744073709551616

/-- Wrap an unbounded integer to Go's 64-bit signed `int` range. -/
def wrap64 (x : Int) : Int := (x + two63) % two64 - two63

/-- The ten digit runes accepted by `getIndexInt`'s `switch`. -/
def isGoDigit (c : Char) : Bool := decide (48 ≤ c.toNat ∧ c.toNat ≤ 57)

/-- Go `unicode.IsSpace`: the Unicode White_Space property. -/
def goSpace (c : Char) : Bool :=
  decide ((9 ≤ c.toNat ∧ c.toNat ≤ 13) ∨ c.toNat = 32 ∨ c.toNat = 133 ∨
    c.toNat = 160 ∨ c.toNat = 5760 ∨ (8192 ≤ c.toNat ∧ c.toNat ≤ 8202) ∨
    c.toNat = 8232 ∨ c.toNat = 8233 ∨ c.toNat = 8239 ∨ c.toNat = 8287 ∨
    c.toNat = 12288)

/-- Go `strings.TrimSpace`: drop leading and trailing white space. -/
def trimSpace (s : List Char) : List Char :=
  ((s.dropWhile goSpace).reverse.dropWhile goSpace).reverse

/-- Go `strings.Split(s, sep)` for a one-rune separator: the list of
(possibly empty) segments between occurrences of `sep`. -/
def goSplit (sep : Char) : List Char → List (List Char)
  | [] => [[]]
  | c :: cs =>
    if c = sep then [] :: goSplit sep cs
    else
      match goSplit sep cs with
      | [] => [[c]]
      | seg :: rest => (c :: seg) :: rest

/-- The digit-accumulating loop of `getIndexInt`: `n = n*10 + int(c-'0')`
with Go 64-bit `int` wraparound, `-1` on the first non-digit rune. -/
def getIndexIntLoop : Int → List Char → Int
  | n, [] => n
  | n, c :: cs =>
    if isGoDigit c then
      getIndexIntLoop (wrap64 (n * 10 + ((c.toNat : Int) - 48))) cs
    else
      -1

/-- `getIndexInt` from reassemble.go: trim the field, then fold the digits;
any non-digit rune yields `-1`.  An empty (or all-space) field yields `0`. -/
def getIndexInt (s : List Char) : Int :=
  getIndexIntLoop 0 (trimSpace s)

/-- Model of Go's `map[int]string` in `reassemble` (only non-negative keys
are ever stored, so keys are `Nat`): association list, unique keys. -/
abbrev PartsMap := List (Nat × List Char)

/-- Map lookup (`val, found := parts[i]`). -/
def mapGet (k : Nat) : PartsMap → Option (List Char)
  | [] => none
  | (k', v) :: m => if k = k' then some v else mapGet k m

/-- Map store with overwrite (`parts[n] = txt`): replace in place if the key
is present, append otherwise. -/
def mapInsert (k : Nat) (v : List Char) : PartsMap → PartsMap
  | [] => [(k, v)]
  | (k', v') :: m => if k = k' then (k, v) :: m else (k', v') :: mapInsert k v m

/-- One iteration of `reassemble`'s first loop: split the line on `:`,
require exactly two segments, require a non-negative index, store the
trimmed payload (overwriting any earlier entry for the same index). -/
def insertLine (m : PartsMap) (line : List Char) : PartsMap :=
  match goSplit ':' line with
  | [a, b] =>
    let n := getIndexInt a
    if n < 0 then m else mapInsert n.toNat (trimSpace b) m
  | _ => m

/-- The parts map built by `reassemble`'s first loop, seeded with `0 ↦ ""`. -/
def partsFold (lines : List (List Char)) : PartsMap :=
  lines.foldl insertLine [(0, [])]

/-- `reassemble`'s second loop, as the concatenation of `parts[0..k)`;
`none` models the early `return ""` on a missing index. -/
def collect (parts : PartsMap) : Nat → Option (List Char)
  | 0 => some []
  | k + 1 =>
    match collect parts k, mapGet k parts with
    | some acc, some v => some (acc ++ v)
    | _, _ => none

/-- `reassemble` from reassemble.go (`parts` is `partsFold lines`). -/
def reassemble (lines : List (List Char)) : List Char :=
  (collect (partsFold lines) (partsFold lines).length).getD []

/-- Specification view of one decoder line: the `(index, payload)` pair the
line contributes, or `none` when the line is discarded. -/
def parseLine (line : List Char) : Option (Nat × List Char) :=
  match goSplit ':' line with
  | [a, b] =>
    let n := getIndexInt a
    if n < 0 then none else some (n.toNat, trimSpace b)
  | _ => none

/-- The index a line stores to, if any. -/
def lineIndex (line : List Char) : Option Nat :=
  (parseLine line).map Prod.fst

/-- A trimmed index field made only of digit runes. -/
def numericField (a : List Char) : Bool := (trimSpace a).all isGoDigit

/-- The malformed-line shapes named by the spec: zero colons, two or more
colons, or a non-digit rune in the trimmed index field. -/
def badLine (l : List Char) : Bool :=
  match goSplit ':' l with
  | [a, _] => !numericField a
  | _ => true

/-- One decimal digit as a rune. -/
def digitChar : Nat → Char
  | 0 => '0'
  | 1 => '1'
  | 2 => '2'
  | 3 => '3'
  | 4 => '4'
  | 5 => '5'
  | 6 => '6'
  | 7 => '7'
  | 8 => '8'
  | _ => '9'

/-- Decimal digits, most significant first, with (always sufficient) fuel
so that the definition is structural and kernel-reducible. -/
def natDecAux : Nat → Nat → List Char
  | 0, _ => []
  | fuel + 1, n =>
    if n < 10 then [digitChar n]
    else natDecAux fuel (n / 10) ++ [digitChar (n % 10)]

/-- Decimal digits of a natural number, most significant first. -/
def natDec (n : Nat) : List Char := natDecAux (n + 1) n

/-- Go `fmt.Sprintf("%02d", n)`: decimal, zero-padded to width two. -/
def goItoa2 (n : Nat) : List Char :=
  if n < 10 then '0' :: natDec n else natDec n

/-- The `create` configuration struct (maxSize, maxLineLength as Go ints). -/
structure create where
  maxSize : Int
  maxLineLength : Int

/-- The `max` local of one `split` iteration: the width bracket chosen by
`len(result)` (the `switch`), then capped at `len(buf)`. -/
def splitMax (c : create) (result : List (List Char)) (buf : List Char) : Int :=
  let mx0 : Int :=
    if result.length > 999 then c.maxLineLength - 5
    else if result.length > 99 then c.maxLineLength - 4
    else c.maxLineLength - 3
  if (buf.length : Int) < mx0 then (buf.length : Int) else mx0

/-- `create.split` from the source, with explicit fuel.  `none` models a
panic (negative slice bound when `maxLineLength ≤ 2`) or divergence (the
zero-progress loop when the reserved prefix swallows the whole budget). -/
def splitGo (c : create) : Nat → Nat → List (List Char) → Nat → List Char →
    Option (List (List Char) × Nat)
  | 0, _, _, _, _ => none
  | fuel + 1, idx, result, n, buf =>
    if buf = [] then some (result, n)
    else
      let mx : Int := splitMax c result buf
      if mx < 0 then none
      else
        let s := buf.take mx.toNat
        let rest := buf.drop mx.toNat
        let line := goItoa2 idx ++ ':' :: s
        splitGo c fuel (idx + 1) (result ++ [line]) (n + line.length) rest

/-- `WithMaxLineLength`: clamp any value outside `[1,254]` to `254`. -/
def withMaxLineLength (length : Int) : Int :=
  if length ≤ 0 || length > 254 then 254 else length

/-- `WithMaxSize`: clamp any value outside `[1,65270]` to `15*1024`. -/
def withMaxSize (size : Int) : Int :=
  if size ≤ 0 || size > 65270 then 15360 else size

/-- `CreateRecord`: apply the option clamps, split, and fail with the
invalid-input error (here `Except.error ()`) when the total length of the
produced frames exceeds `maxSize`.  The outer `Option` is the panic /
divergence marker inherited from `splitGo`. -/
def CreateRecord (jwt : List Char) (lineLength size : Int) (fuel : Nat) :
    Option (Except Unit (List (List Char))) :=
  let c : create := { maxSize := withMaxSize size, maxLineLength := withMaxLineLength lineLength }
  match splitGo c fuel 0 [] 0 jwt with
  | none => none
  | some (lines, n) =>
    if (n : Int) > c.maxSize then some (Except.error ()) else some (Except.ok lines)

deriving instance DecidableEq for Except

/-- Total length of a list of frames, in runes. -/
def sumLen (ls : List (List Char)) : Nat := (ls.map List.length).sum

/-- The frame set for payload chunks `ps` at indices `base, base+1, ...`,
in the encoder's wire format `"%02d:%s"`. -/
def mkFrames (base : Nat) : List (List Char) → List (List Char)
  | [] => []
  | p :: ps => (goItoa2 base ++ ':' :: p) :: mkFrames (base + 1) ps

/-- The association list `[(base, q0), (base+1, q1), ...]`. -/
def idxMap (base : Nat) : List (List Char) → PartsMap
  | [] => []
  | q :: qs => (base, q) :: idxMap (base + 1) qs

/-- Value of a digit string, unbounded (specification-side helper). -/
def decVal (ds : List Char) : Nat :=
  ds.foldl (fun a c => a * 10 + (c.toNat - 48)) 0

/-- `insertLine`, with every partial Go operation made explicit: the two
indexing steps `segments[0]`, `segments[1]` are guarded lookups; `none`
models a panic. -/
def insertLineP (m : PartsMap) (line : List Char) : Option PartsMap := do
  let segments := goSplit ':' line
  if segments.length = 2 then
    let a ← segments[0]?
    let b ← segments[1]?
    let n := getIndexInt a
    if n < 0 then pure m else pure (mapInsert n.toNat (trimSpace b) m)
  else
    pure m

/-- The first loop of `reassemble` over the panic-explicit step. -/
def partsP : PartsMap → List (List Char) → Option PartsMap
  | m, [] => some m
  | m, l :: ls =>
    match insertLineP m l with
    | none => none
    | some m' => partsP m' ls

/-- `reassemble` with every partial operation explicit; `none` models a
panic (the walk's missing-index branch is Go's normal `return ""`, not a
panic, so it stays a `some`). -/
def reassembleP (lines : List (List Char)) : Option (List Char) :=
  match partsP [(0, [])] lines with
  | none => none
  | some parts => some ((collect parts parts.length).getD [])

example : reassemble [("00:header").toList, ("01:.payload.").toList, ("02:signature").toList]
    = ("header.payload.signature").toList := by decide

example : reassemble [("00:header").toList, ("02:signature").toList] = [] := by decide

example : reassemble [("01:header").toList, ("02:.payload.").toList, ("03:signature").toList]
    = ("header.payload.signature").toList := by decide

example : CreateRecord ("header.payload.signature").toList 0 0 30
    = some (Except.ok [("00:header.payload.signature").toList]) := by decide

example : CreateRecord ("header.payload.signature").toList 10 0 30
    = some (Except.ok [("00:header.").toList, ("01:payload").toList,
        ("02:.signat").toList, ("03:ure").toList]) := by decide

example : CreateRecord ("header.payload.signature").toList 0 10 30
    = some (Except.error ()) := by decide

/-! ### Arithmetic and parsing lemmas -/

lemma wrap64_eq_self {x : Int} (h0 : 0 ≤ x) (h1 : x < two63) : wrap64 x = x := by
  simp only [wrap64, two63, two64] at *
  omega

lemma digitChar_toNat {d : Nat} (h : d < 10) : (digitChar d).toNat = 48 + d := by
  interval_cases d <;> rfl

lemma isGoDigit_digitChar {d : Nat} (h : d < 10) : isGoDigit (digitChar d) = true := by
  interval_cases d <;> rfl

lemma goSpace_of_digit {c : Char} (h : isGoDigit c = true) : goSpace c = false := by
  simp only [isGoDigit, decide_eq_true_eq] at h
  simp only [goSpace, decide_eq_false_iff_not]
  omega

lemma dropWhile_eq_self_of {p : Char → Bool} {s : List Char}
    (h : ∀ c ∈ s, p c = false) : s.dropWhile p = s := by
  cases s with
  | nil => rfl
  | cons c cs =>
    have hc := h c (by simp)
    simp [List.dropWhile_cons, hc]

lemma dropWhile_eq_nil_of {p : Char → Bool} {s : List Char}
    (h : ∀ c ∈ s, p c = true) : s.dropWhile p = [] := by
  induction s with
  | nil => rfl
  | cons c cs ih =>
    have hc := h c (by simp)
    simp only [List.dropWhile_cons, hc, if_true]
    exact ih fun d hd => h d (by simp [hd])

lemma trimSpace_eq_self {s : List Char} (h : ∀ c ∈ s, goSpace c = false) :
    trimSpace s = s := by
  unfold trimSpace
  rw [dropWhile_eq_self_of h, dropWhile_eq_self_of, List.reverse_reverse]
  intro c hc
  exact h c (List.mem_reverse.mp hc)

lemma trimSpace_eq_nil {s : List Char} (h : ∀ c ∈ s, goSpace c = true) :
    trimSpace s = [] := by
  unfold trimSpace
  rw [dropWhile_eq_nil_of h]
  rfl

lemma natDecAux_congr : ∀ f1 : Nat, ∀ n f2 : Nat, n < f1 → n < f2 →
    natDecAux f1 n = natDecAux f2 n := by
  intro f1
  induction f1 with
  | zero => intro n f2 h1 _ ; omega
  | succ f ih =>
    intro n f2 h1 h2
    cases f2 with
    | zero => omega
    | succ f2' =>
      simp only [natDecAux]
      by_cases hn : n < 10
      · simp [hn]
      · simp only [hn, if_false]
        have hd : n / 10 < n := Nat.div_lt_self (by omega) (by omega)
        rw [ih (n / 10) f (by omega) (by omega), ih (n / 10) f2' (by omega) (by omega)]

lemma decVal_append (xs : List Char) (c : Char) :
    decVal (xs ++ [c]) = decVal xs * 10 + (c.toNat - 48) := by
  simp [decVal, List.foldl_append]

lemma natDecAux_spec : ∀ fuel : Nat, ∀ n : Nat, n < fuel →
    (∀ c ∈ natDecAux fuel n, isGoDigit c = true) ∧ decVal (natDecAux fuel n) = n := by
  intro fuel
  induction fuel with
  | zero => intro n h ; omega
  | succ f ih =>
    intro n hn
    by_cases h : n < 10
    · constructor
      · intro c hc
        simp only [natDecAux, h, if_true, List.mem_singleton] at hc
        subst hc
        exact isGoDigit_digitChar h
      · simp only [natDecAux, h, if_true]
        show decVal [digitChar n] = n
        simp [decVal, digitChar_toNat h]
    · have hd : n / 10 < n := Nat.div_lt_self (by omega) (by omega)
      obtain ⟨ihd, ihv⟩ := ih (n / 10) (by omega)
      simp only [natDecAux, h, if_false]
      constructor
      · intro c hc
        rcases List.mem_append.mp hc with hc | hc
        · exact ihd c hc
        · rw [List.mem_singleton.mp hc]
          exact isGoDigit_digitChar (by omega)
      · rw [decVal_append, ihv, digitChar_toNat (by omega)]
        omega

lemma natDec_digits {n : Nat} : ∀ c ∈ natDec n, isGoDigit c = true :=
  (natDecAux_spec (n + 1) n (by omega)).1

lemma decVal_natDec (n : Nat) : decVal (natDec n) = n :=
  (natDecAux_spec (n + 1) n (by omega)).2

lemma goItoa2_digits {n : Nat} : ∀ c ∈ goItoa2 n, isGoDigit c = true := by
  intro c hc
  unfold goItoa2 at hc
  by_cases h : n < 10
  · simp only [h, if_true, List.mem_cons] at hc
    rcases hc with hc | hc
    · subst hc ; rfl
    · exact natDec_digits c hc
  · simp only [h, if_false] at hc
    exact natDec_digits c hc

lemma decVal_cons_zero (ds : List Char) : decVal ('0' :: ds) = decVal ds := by
  simp [decVal, List.foldl_cons]

lemma decVal_goItoa2 (n : Nat) : decVal (goItoa2 n) = n := by
  unfold goItoa2
  by_cases h : n < 10
  · simp only [h, if_true]
    rw [decVal_cons_zero, decVal_natDec]
  · simp only [h, if_false]
    exact decVal_natDec n

/-- `decVal` started from accumulator `a`. -/
def decValFrom (a : Nat) (ds : List Char) : Nat :=
  ds.foldl (fun x c => x * 10 + (c.toNat - 48)) a

lemma decValFrom_zero (ds : List Char) : decValFrom 0 ds = decVal ds := rfl

lemma decValFrom_ge (ds : List Char) : ∀ a, a ≤ decValFrom a ds := by
  induction ds with
  | nil => intro a ; exact Nat.le_refl a
  | cons c cs ih =>
    intro a
    calc a ≤ a * 10 + (c.toNat - 48) := by omega
    _ ≤ decValFrom (a * 10 + (c.toNat - 48)) cs := ih _

lemma getIndexIntLoop_spec : ∀ ds : List Char, ∀ a : Nat,
    (∀ c ∈ ds, isGoDigit c = true) → decValFrom a ds < 2 ^ 63 →
    getIndexIntLoop (a : Int) ds = ((decValFrom a ds : Nat) : Int) := by
  intro ds
  induction ds with
  | nil => intro a _ _ ; rfl
  | cons c cs ih =>
    intro a hdig hb
    have hc : isGoDigit c = true := hdig c (by simp)
    have h48 : 48 ≤ c.toNat ∧ c.toNat ≤ 57 := by
      simpa [isGoDigit] using hc
    have hstep : decValFrom a (c :: cs) = decValFrom (a * 10 + (c.toNat - 48)) cs := rfl
    have hsmall : a * 10 + (c.toNat - 48) < 2 ^ 63 := by
      have := decValFrom_ge cs (a * 10 + (c.toNat - 48))
      rw [hstep] at hb
      omega
    simp only [getIndexIntLoop, hc, if_true]
    have hcast : (a : Int) * 10 + ((c.toNat : Int) - 48) = ((a * 10 + (c.toNat - 48) : Nat) : Int) := by
      push_cast [Nat.cast_sub h48.1]
      ring
    rw [hcast, wrap64_eq_self (by positivity) ?hlt]
    case hlt =>
      show ((a * 10 + (c.toNat - 48) : Nat) : Int) < two63
      have : two63 = ((2 ^ 63 : Nat) : Int) := by norm_num [two63]
      rw [this]
      exact_mod_cast hsmall
    rw [hstep, ih (a * 10 + (c.toNat - 48)) (fun d hd => hdig d (by simp [hd])) (by rw [← hstep] ; exact hb)]

lemma getIndexInt_goItoa2 {n : Nat} (h : n < 2 ^ 63) :
    getIndexInt (goItoa2 n) = (n : Int) := by
  unfold getIndexInt
  rw [trimSpace_eq_self (fun c hc => goSpace_of_digit (goItoa2_digits c hc))]
  have := getIndexIntLoop_spec (goItoa2 n) 0 goItoa2_digits
    (by rw [decValFrom_zero, decVal_goItoa2] ; exact h)
  rw [decValFrom_zero, decVal_goItoa2] at this
  exact_mod_cast this

lemma getIndexIntLoop_neg : ∀ ds : List Char, ∀ n : Int,
    (∃ c ∈ ds, isGoDigit c = false) → getIndexIntLoop n ds = -1 := by
  intro ds
  induction ds with
  | nil => intro n h ; simp at h
  | cons c cs ih =>
    intro n h
    by_cases hc : isGoDigit c
    · have : ∃ d ∈ cs, isGoDigit d = false := by
        rcases h with ⟨d, hd, hdf⟩
        rcases List.mem_cons.mp hd with rfl | hd
        · rw [hc] at hdf ; cases hdf
        · exact ⟨d, hd, hdf⟩
      simp only [getIndexIntLoop, hc, if_true]
      exact ih _ this
    · simp [getIndexIntLoop, hc]

lemma goSplit_no_sep {sep : Char} : ∀ s : List Char, sep ∉ s → goSplit sep s = [s] := by
  intro s
  induction s with
  | nil => intro _ ; rfl
  | cons c cs ih =>
    intro h
    have hc : ¬ c = sep := fun he => h (by simp [he])
    have hcs : sep ∉ cs := fun he => h (by simp [he])
    simp only [goSplit, hc, if_false, ih hcs]

lemma goSplit_frame {sep : Char} {a b : List Char} (ha : sep ∉ a) (hb : sep ∉ b) :
    goSplit sep (a ++ sep :: b) = [a, b] := by
  induction a with
  | nil =>
    rw [List.nil_append]
    show goSplit sep (sep :: b) = [[], b]
    simp [goSplit, goSplit_no_sep b hb]
  | cons c cs ih =>
    have hc : ¬ c = sep := fun he => ha (by simp [he])
    have hcs : sep ∉ cs := fun he => ha (by simp [he])
    rw [List.cons_append]
    show goSplit sep (c :: (cs ++ sep :: b)) = [c :: cs, b]
    simp only [goSplit, hc, if_false, List.append_eq, ih hcs]

/-! ### Map lemmas -/

lemma mapGet_mapInsert (q k : Nat) (v : List Char) : ∀ m : PartsMap,
    mapGet q (mapInsert k v m) = if q = k then some v else mapGet q m := by
  intro m
  induction m with
  | nil => simp [mapInsert, mapGet]
  | cons kv m ih =>
    obtain ⟨k', v'⟩ := kv
    by_cases hk : k = k'
    · subst hk
      simp only [mapInsert, if_pos rfl, mapGet]
      by_cases hq : q = k <;> simp [hq]
    · simp only [mapInsert, if_neg hk, mapGet]
      by_cases hq : q = k'
      · have hqk : ¬ q = k := by rw [hq] ; exact fun h => hk h.symm
        simp [hq, hqk, Ne.symm hk]
      · simp [hq, ih]

lemma length_mapInsert (k : Nat) (v : List Char) : ∀ m : PartsMap,
    (mapInsert k v m).length = if (mapGet k m).isSome then m.length else m.length + 1 := by
  intro m
  induction m with
  | nil => simp [mapInsert, mapGet]
  | cons kv m ih =>
    obtain ⟨k', v'⟩ := kv
    by_cases hk : k = k'
    · subst hk
      simp [mapInsert, mapGet]
    · simp only [mapInsert, if_neg hk, mapGet, List.length_cons, ih]
      by_cases hs : (mapGet k m).isSome
      · simp [hk, hs]
      · simp [hk, hs]

lemma mapGet_append (k : Nat) : ∀ m1 m2 : PartsMap,
    mapGet k (m1 ++ m2) =
      match mapGet k m1 with
      | some v => some v
      | none => mapGet k m2 := by
  intro m1 m2
  induction m1 with
  | nil => simp [mapGet]
  | cons kv m ih =>
    obtain ⟨k', v'⟩ := kv
    by_cases hk : k = k'
    · simp [mapGet, hk]
    · simp [mapGet, hk, ih]

lemma mapInsert_append_of_fresh (k : Nat) (v : List Char) : ∀ m : PartsMap,
    (∀ kv ∈ m, kv.1 ≠ k) → mapInsert k v m = m ++ [(k, v)] := by
  intro m
  induction m with
  | nil => intro _ ; rfl
  | cons kv m ih =>
    intro h
    obtain ⟨k', v'⟩ := kv
    have hk : ¬ k = k' := fun he => h (k', v') (by simp) (by simp [he.symm])
    simp only [mapInsert, if_neg hk, List.cons_append, List.cons.injEq, true_and]
    exact ih fun kv hkv => h kv (by simp [hkv])

lemma idxMap_keys : ∀ qs : List (List Char), ∀ base : Nat, ∀ kv ∈ idxMap base qs,
    base ≤ kv.1 ∧ kv.1 < base + qs.length := by
  intro qs
  induction qs with
  | nil => intro base kv hkv ; simp [idxMap] at hkv
  | cons q qs ih =>
    intro base kv hkv
    rcases List.mem_cons.mp hkv with rfl | hkv
    · simp
    · have := ih (base + 1) kv hkv
      simp only [List.length_cons]
      omega

lemma length_idxMap : ∀ qs : List (List Char), ∀ base : Nat,
    (idxMap base qs).length = qs.length := by
  intro qs
  induction qs with
  | nil => intro base ; rfl
  | cons q qs ih => intro base ; simp [idxMap, ih]

lemma mapGet_idxMap : ∀ qs : List (List Char), ∀ base k : Nat,
    mapGet k (idxMap base qs) = if base ≤ k then qs[k - base]? else none := by
  intro qs
  induction qs with
  | nil =>
    intro base k
    simp [idxMap, mapGet]
  | cons q qs ih =>
    intro base k
    by_cases hk : k = base
    · subst hk
      simp [idxMap, mapGet, List.getElem?_cons_zero]
    · have : mapGet k (idxMap base (q :: qs)) = mapGet k (idxMap (base + 1) qs) := by
        simp [idxMap, mapGet, hk]
      rw [this, ih (base + 1) k]
      by_cases hle : base ≤ k
      · have h1 : base + 1 ≤ k := by omega
        have h2 : k - base = (k - (base + 1)) + 1 := by omega
        simp only [hle, if_true, h1, h2, List.getElem?_cons_succ]
      · have h1 : ¬ base + 1 ≤ k := by omega
        simp [hle, h1]

lemma isGoDigit_colon_false : isGoDigit ':' = false := by decide

lemma colon_not_mem_goItoa2 (n : Nat) : ':' ∉ goItoa2 n := by
  intro h
  have := goItoa2_digits ':' h
  rw [isGoDigit_colon_false] at this
  cases this

lemma getIndexInt_nonneg_goItoa2 {n : Nat} (h : n < 2 ^ 63) :
    ¬ getIndexInt (goItoa2 n) < 0 := by
  rw [getIndexInt_goItoa2 h]
  exact not_lt.mpr (Int.natCast_nonneg n)

lemma insertLine_frame {idx : Nat} {p : List Char} (hidx : idx < 2 ^ 63)
    (hp : ':' ∉ p) (m : PartsMap) :
    insertLine m (goItoa2 idx ++ ':' :: p) = mapInsert idx (trimSpace p) m := by
  unfold insertLine
  rw [goSplit_frame (colon_not_mem_goItoa2 idx) hp]
  simp only [getIndexInt_goItoa2 hidx, Int.toNat_natCast]
  rw [if_neg (not_lt.mpr (Int.natCast_nonneg idx))]

lemma fold_frames : ∀ ps : List (List Char), ∀ base : Nat, ∀ m : PartsMap,
    (∀ kv ∈ m, kv.1 < base) → (∀ p ∈ ps, ':' ∉ p) → base + ps.length ≤ 2 ^ 63 →
    List.foldl insertLine m (mkFrames base ps) = m ++ idxMap base (ps.map trimSpace) := by
  intro ps
  induction ps with
  | nil =>
    intro base m _ _ _
    simp [mkFrames, idxMap]
  | cons p ps ih =>
    intro base m hm hp hb
    have h1 : insertLine m (goItoa2 base ++ ':' :: p) = mapInsert base (trimSpace p) m :=
      insertLine_frame (by simp at hb ; omega) (hp p (by simp)) m
    have h2 : mapInsert base (trimSpace p) m = m ++ [(base, trimSpace p)] :=
      mapInsert_append_of_fresh base (trimSpace p) m
        (fun kv hkv => Nat.ne_of_lt (hm kv hkv))
    have h3 : ∀ kv ∈ m ++ [(base, trimSpace p)], kv.1 < base + 1 := by
      intro kv hkv
      rcases List.mem_append.mp hkv with hkv | hkv
      · exact Nat.lt_succ_of_lt (hm kv hkv)
      · rw [List.mem_singleton.mp hkv]
        exact Nat.lt_succ_self base
    show List.foldl insertLine (insertLine m (goItoa2 base ++ ':' :: p)) (mkFrames (base + 1) ps)
      = m ++ idxMap base ((p :: ps).map trimSpace)
    rw [h1, h2, ih (base + 1) (m ++ [(base, trimSpace p)]) h3
      (fun q hq => hp q (by simp [hq])) (by simp at hb ⊢ ; omega)]
    simp [idxMap, List.append_assoc]

lemma collect_idxMap : ∀ qs : List (List Char), ∀ j : Nat, j ≤ qs.length →
    collect (idxMap 0 qs) j = some ((qs.take j).flatten) := by
  intro qs j
  induction j with
  | zero => intro _ ; rfl
  | succ j ih =>
    intro hj
    have hjl : j < qs.length := by omega
    have hget : mapGet j (idxMap 0 qs) = some qs[j] := by
      rw [mapGet_idxMap qs 0 j]
      simp [List.getElem?_eq_getElem hjl]
    have htake : (qs.take (j + 1)).flatten = (qs.take j).flatten ++ qs[j] := by
      rw [List.take_succ, List.getElem?_eq_getElem hjl, List.flatten_append]
      simp
    simp only [collect, ih (by omega), hget, htake]

lemma partsFold_frames0 {ps : List (List Char)} (hne : ps ≠ [])
    (hp : ∀ p ∈ ps, ':' ∉ p) (hb : ps.length ≤ 2 ^ 63) :
    partsFold (mkFrames 0 ps) = idxMap 0 (ps.map trimSpace) := by
  obtain ⟨p, ps', rfl⟩ : ∃ q qs, ps = q :: qs := by
    cases ps with
    | nil => exact absurd rfl hne
    | cons q qs => exact ⟨q, qs, rfl⟩
  show List.foldl insertLine [(0, [])] (mkFrames 0 (p :: ps')) = _
  have h1 : insertLine [(0, [])] (goItoa2 0 ++ ':' :: p) = [(0, trimSpace p)] := by
    rw [insertLine_frame (by norm_num) (hp p (by simp)) [(0, [])]]
    rfl
  show List.foldl insertLine (insertLine [(0, [])] (goItoa2 0 ++ ':' :: p)) (mkFrames 1 ps') = _
  rw [h1, fold_frames ps' 1 [(0, trimSpace p)]
    (by intro kv hkv ; rcases List.mem_singleton.mp hkv with rfl ; exact Nat.lt_succ_self 0)
    (fun q hq => hp q (by simp [hq])) (by simp at hb ⊢ ; omega)]
  simp [idxMap]

lemma partsFold_frames1 {ps : List (List Char)}
    (hp : ∀ p ∈ ps, ':' ∉ p) (hb : 1 + ps.length ≤ 2 ^ 63) :
    partsFold (mkFrames 1 ps) = idxMap 0 ([] :: ps.map trimSpace) := by
  show List.foldl insertLine [(0, [])] (mkFrames 1 ps) = _
  rw [fold_frames ps 1 [(0, [])]
    (by intro kv hkv ; rcases List.mem_singleton.mp hkv with rfl ; exact Nat.lt_succ_self 0)
    hp hb]
  rfl

lemma reassemble_mkFrames {base : Nat} {ps : List (List Char)} (hbase : base ≤ 1)
    (hp : ∀ p ∈ ps, ':' ∉ p) (htrim : ∀ p ∈ ps, trimSpace p = p)
    (hb : base + ps.length ≤ 2 ^ 63) :
    reassemble (mkFrames base ps) = ps.flatten := by
  have hmap : ps.map trimSpace = ps := by
    calc ps.map trimSpace = ps.map id := List.map_congr_left htrim
    _ = ps := List.map_id ps
  interval_cases base
  · cases ps with
    | nil => rfl
    | cons p ps' =>
      unfold reassemble
      rw [partsFold_frames0 (by simp) hp (by omega), hmap,
        length_idxMap, collect_idxMap _ _ (Nat.le_refl _), List.take_length]
      rfl
  · unfold reassemble
    rw [partsFold_frames1 hp hb, hmap]
    have hlen : (idxMap 0 ([] :: ps)).length = ps.length + 1 := by
      rw [length_idxMap]
      rfl
    have htake : ([] :: ps).take (ps.length + 1) = [] :: ps :=
      List.take_length ([] :: ps)
    rw [hlen, collect_idxMap ([] :: ps) (ps.length + 1) (by simp), htake]
    simp


/-! ### Splitter lemmas -/

lemma splitMax_pos {c : create} {buf : List Char} (res : List (List Char))
    (hb : buf ≠ []) (hc : 6 ≤ c.maxLineLength) : 1 ≤ splitMax c res buf := by
  have hlen : 1 ≤ buf.length := List.length_pos.mpr hb
  unfold splitMax
  dsimp only
  by_cases h1 : res.length > 999 <;> by_cases h2 : res.length > 99 <;>
    simp only [h1, h2, if_true, if_false] <;> split <;> omega

lemma splitGo_sum (c : create) : ∀ fuel idx : Nat, ∀ res : List (List Char), ∀ n : Nat,
    ∀ buf : List Char, ∀ lines : List (List Char), ∀ m : Nat,
    splitGo c fuel idx res n buf = some (lines, m) → m + sumLen res = n + sumLen lines := by
  intro fuel
  induction fuel with
  | zero =>
    intro idx res n buf lines m h
    simp [splitGo] at h
  | succ f ih =>
    intro idx res n buf lines m h
    by_cases hb : buf = []
    · rw [splitGo, if_pos hb] at h
      simp only [Option.some.injEq, Prod.mk.injEq] at h
      obtain ⟨rfl, rfl⟩ := h
      omega
    · rw [splitGo, if_neg hb] at h
      simp only at h
      split at h
      · exact Option.noConfusion h
      · have h2 := ih _ _ _ _ _ _ h
        simp only [sumLen, List.map_append, List.map_cons, List.map_nil,
          List.sum_append, List.sum_cons, List.sum_nil] at h2 ⊢
        omega

lemma splitGo_spec {c : create} (hc : 6 ≤ c.maxLineLength) : ∀ fuel idx : Nat,
    ∀ res : List (List Char), ∀ n : Nat, ∀ buf : List Char,
    ∀ lines : List (List Char), ∀ m : Nat,
    splitGo c fuel idx res n buf = some (lines, m) →
    ∃ chunks : List (List Char), lines = res ++ mkFrames idx chunks ∧
      chunks.flatten = buf ∧ ∀ ch ∈ chunks, ch ≠ [] := by
  intro fuel
  induction fuel with
  | zero =>
    intro idx res n buf lines m h
    simp [splitGo] at h
  | succ f ih =>
    intro idx res n buf lines m h
    by_cases hb : buf = []
    · rw [splitGo, if_pos hb] at h
      simp only [Option.some.injEq, Prod.mk.injEq] at h
      obtain ⟨rfl, rfl⟩ := h
      exact ⟨[], by simp [mkFrames], hb.symm, by simp⟩
    · rw [splitGo, if_neg hb] at h
      simp only at h
      split at h
      · exact Option.noConfusion h
      · obtain ⟨chunks, h1, h2, h3⟩ := ih _ _ _ _ _ _ h
        refine ⟨buf.take (splitMax c res buf).toNat :: chunks, ?_, ?_, ?_⟩
        · rw [h1]
          simp [mkFrames, List.append_assoc]
        · rw [List.flatten_cons, h2, List.take_append_drop]
        · intro ch hch
          rcases List.mem_cons.mp hch with rfl | hch
          · have hpos := splitMax_pos res hb hc
            simp only [ne_eq, List.take_eq_nil_iff, not_or]
            exact ⟨by omega, hb⟩
          · exact h3 ch hch

lemma length_le_sumLen_mkFrames : ∀ cs : List (List Char), ∀ base : Nat,
    cs.length ≤ sumLen (mkFrames base cs) := by
  intro cs
  induction cs with
  | nil => intro base ; simp [mkFrames, sumLen]
  | cons p ps ih =>
    intro base
    have := ih (base + 1)
    simp only [mkFrames, sumLen, List.map_cons, List.sum_cons, List.length_cons,
      List.length_append] at *
    omega

/-! ### From `CreateRecord` success to frame structure -/

lemma withMaxLineLength_eq {lineLength : Int} (h1 : 1 ≤ lineLength) (h2 : lineLength ≤ 254) :
    withMaxLineLength lineLength = lineLength := by
  unfold withMaxLineLength
  rw [if_neg]
  simp only [Bool.or_eq_true, decide_eq_true_eq, not_or]
  omega

lemma withMaxSize_eq {size : Int} (h1 : 1 ≤ size) (h2 : size ≤ 65270) :
    withMaxSize size = size := by
  unfold withMaxSize
  rw [if_neg]
  simp only [Bool.or_eq_true, decide_eq_true_eq, not_or]
  omega

lemma CreateRecord_ok_elim {jwt : List Char} {lineLength size : Int} {fuel : Nat}
    {lines : List (List Char)}
    (hL : 1 ≤ lineLength ∧ lineLength ≤ 254) (hS : 1 ≤ size ∧ size ≤ 65270)
    (h : CreateRecord jwt lineLength size fuel = some (Except.ok lines)) :
    ∃ n : Nat, splitGo ⟨size, lineLength⟩ fuel 0 [] 0 jwt = some (lines, n) ∧ (n : Int) ≤ size := by
  simp only [CreateRecord, withMaxLineLength_eq hL.1 hL.2, withMaxSize_eq hS.1 hS.2] at h
  cases hsg : splitGo ⟨size, lineLength⟩ fuel 0 [] 0 jwt with
  | none =>
    rw [hsg] at h
    exact Option.noConfusion h
  | some p =>
    obtain ⟨ls, n⟩ := p
    rw [hsg] at h
    simp only at h
    split at h
    · simp at h
    · simp only [Option.some.injEq, Except.ok.injEq] at h
      subst h
      exact ⟨n, rfl, by omega⟩

lemma length_mkFrames : ∀ cs : List (List Char), ∀ base : Nat,
    (mkFrames base cs).length = cs.length := by
  intro cs
  induction cs with
  | nil => intro base ; rfl
  | cons p ps ih => intro base ; simp [mkFrames, ih]

lemma eraseIdx_mkFrames : ∀ cs : List (List Char), ∀ base j : Nat,
    (mkFrames base cs).eraseIdx j =
      mkFrames base (cs.take j) ++ mkFrames (base + j + 1) (cs.drop (j + 1)) := by
  intro cs
  induction cs with
  | nil => intro base j ; simp [mkFrames]
  | cons p ps ih =>
    intro base j
    cases j with
    | zero => simp [mkFrames, List.eraseIdx]
    | succ j =>
      show (goItoa2 base ++ ':' :: p) :: (mkFrames (base + 1) ps).eraseIdx j = _
      rw [ih (base + 1) j]
      have harith : base + 1 + j + 1 = base + (j + 1) + 1 := by omega
      rw [harith]
      simp [mkFrames, List.take_succ_cons, List.drop_succ_cons, List.cons_append]

lemma collect_none : ∀ k j : Nat, ∀ parts : PartsMap, j < k → mapGet j parts = none →
    collect parts k = none := by
  intro k
  induction k with
  | zero => intro j parts h _ ; omega
  | succ k ih =>
    intro j parts hj hget
    by_cases hjk : j = k
    · subst hjk
      simp only [collect, hget]
      cases collect parts j <;> rfl
    · have := ih j parts (by omega) hget
      simp only [collect, this]

lemma flatten_forall_mem {P : Char → Prop} {cs : List (List Char)}
    (h : ∀ c ∈ cs.flatten, P c) : ∀ p ∈ cs, ∀ c ∈ p, P c := by
  intro p hp c hc
  exact h c (List.mem_flatten.mpr ⟨p, hp, hc⟩)

lemma CreateRecord_frames {s : List Char} {lineLength size : Int} {fuel : Nat}
    {lines : List (List Char)}
    (hL : 6 ≤ lineLength ∧ lineLength ≤ 254) (hS : 1 ≤ size ∧ size ≤ 65270)
    (hok : CreateRecord s lineLength size fuel = some (Except.ok lines)) :
    ∃ chunks : List (List Char), lines = mkFrames 0 chunks ∧ chunks.flatten = s ∧
      (∀ ch ∈ chunks, ch ≠ []) ∧ chunks.length ≤ 65270 := by
  obtain ⟨n, hsg, hn⟩ := CreateRecord_ok_elim ⟨by omega, hL.2⟩ hS hok
  obtain ⟨chunks, h1, h2, h3⟩ :=
    splitGo_spec (c := ⟨size, lineLength⟩) hL.1 fuel 0 [] 0 s lines n hsg
  rw [List.nil_append] at h1
  have hsum := splitGo_sum ⟨size, lineLength⟩ fuel 0 [] 0 s lines n hsg
  have hn65270 : n ≤ 65270 := by
    have hni : (n : Int) ≤ 65270 := le_trans hn hS.2
    exact_mod_cast hni
  have hnil : sumLen ([] : List (List Char)) = 0 := rfl
  rw [hnil] at hsum
  have hsl : sumLen lines = n := by omega
  have hcl : chunks.length ≤ n := by
    have hlconv := length_le_sumLen_mkFrames chunks 0
    rw [← h1, hsl] at hlconv
    exact hlconv
  exact ⟨chunks, h1, h2, h3, by omega⟩

lemma pow63_eq : (2 : Nat) ^ 63 = 9223372036854775808 := by norm_num

/-- C1: for a colon-free, whitespace-free ASCII payload and a valid budget
with `maxLineLength ≥ 6`, any successful encoding reassembles to the
original payload: `reassemble (encode s) = s`. -/
theorem c1_round_trip (s : List Char) (lineLength size : Int) (fuel : Nat)
    (lines : List (List Char))
    (hL : 6 ≤ lineLength ∧ lineLength ≤ 254) (hS : 1 ≤ size ∧ size ≤ 65270)
    (hascii : ∀ c ∈ s, c.toNat < 128) (hcolon : ':' ∉ s)
    (hspace : ∀ c ∈ s, goSpace c = false)
    (hok : CreateRecord s lineLength size fuel = some (Except.ok lines)) :
    reassemble lines = s := by
  obtain ⟨chunks, rfl, h2, h3, h4⟩ := CreateRecord_frames hL hS hok
  have hpc : ∀ p ∈ chunks, ':' ∉ p := by
    intro p hp hmem
    exact hcolon (h2 ▸ List.mem_flatten.mpr ⟨p, hp, hmem⟩)
  have htr : ∀ p ∈ chunks, trimSpace p = p := by
    intro p hp
    exact trimSpace_eq_self fun c hc => hspace c (h2 ▸ List.mem_flatten.mpr ⟨p, hp, hc⟩)
  rw [reassemble_mkFrames (by omega) hpc htr (by rw [pow63_eq] ; omega), h2]

/-- C1 witness: the concrete budget-10 split of a JWT-shaped payload
round-trips. -/
theorem c1_round_trip_witness :
    reassemble [("00:header.").toList, ("01:payload").toList,
      ("02:.signat").toList, ("03:ure").toList] = ("header.payload.signature").toList :=
  c1_round_trip ("header.payload.signature").toList 10 50 30 _
    (by decide) (by decide) (by decide) (by decide) (by decide) (by decide)

/-- C1 counterexample: the claim fails as stated for a payload containing a
colon; encoding succeeds under the default budget but reassembly returns
the empty string, not the payload. -/
theorem c1_round_trip_counterexample :
    CreateRecord (":").toList 254 15360 2 = some (Except.ok [("00::").toList]) ∧
    reassemble [("00::").toList] = [] ∧ (":").toList ≠ [] := by
  exact ⟨by decide, by decide, by decide⟩

/-- C2: removing a single frame at an interior index (neither the first
frame, index 0, nor the last frame) from a successfully encoded set makes
`reassemble` return the empty string. -/
theorem c2_missing_chunk (s : List Char) (lineLength size : Int) (fuel : Nat)
    (lines : List (List Char)) (j : Nat)
    (hL : 6 ≤ lineLength ∧ lineLength ≤ 254) (hS : 1 ≤ size ∧ size ≤ 65270)
    (hcolon : ':' ∉ s)
    (hok : CreateRecord s lineLength size fuel = some (Except.ok lines))
    (hj1 : 1 ≤ j) (hj2 : j + 1 < lines.length) :
    reassemble (lines.eraseIdx j) = [] := by
  obtain ⟨chunks, rfl, h2, h3, h4⟩ := CreateRecord_frames hL hS hok
  have hpc : ∀ p ∈ chunks, ':' ∉ p := by
    intro p hp hmem
    exact hcolon (h2 ▸ List.mem_flatten.mpr ⟨p, hp, hmem⟩)
  rw [length_mkFrames chunks 0] at hj2
  rw [eraseIdx_mkFrames chunks 0 j]
  have hz : (0 : Nat) + j + 1 = j + 1 := by omega
  rw [hz]
  have htlen : (chunks.take j).length = j := by
    rw [List.length_take]
    omega
  have hA : partsFold (mkFrames 0 (chunks.take j)) =
      idxMap 0 ((chunks.take j).map trimSpace) := by
    apply partsFold_frames0
    · have hpos : 0 < (chunks.take j).length := by omega
      exact List.length_pos.mp hpos
    · intro p hp
      exact hpc p (List.take_subset j chunks hp)
    · rw [htlen, pow63_eq]
      omega
  have hfold : partsFold (mkFrames 0 (chunks.take j) ++ mkFrames (j + 1) (chunks.drop (j + 1)))
      = idxMap 0 ((chunks.take j).map trimSpace)
        ++ idxMap (j + 1) ((chunks.drop (j + 1)).map trimSpace) := by
    unfold partsFold
    rw [List.foldl_append]
    show List.foldl insertLine (partsFold (mkFrames 0 (chunks.take j))) _ = _
    rw [hA]
    apply fold_frames
    · intro kv hkv
      have := idxMap_keys ((chunks.take j).map trimSpace) 0 kv hkv
      rw [List.length_map, htlen] at this
      omega
    · intro p hp
      exact hpc p (List.drop_subset (j + 1) chunks hp)
    · rw [List.length_drop, pow63_eq]
      omega
  have hnone : ((chunks.take j).map trimSpace)[j - 0]? = none := by
    apply List.getElem?_eq_none
    rw [List.length_map, htlen]
    omega
  have hget : mapGet j (idxMap 0 ((chunks.take j).map trimSpace)
      ++ idxMap (j + 1) ((chunks.drop (j + 1)).map trimSpace)) = none := by
    rw [mapGet_append, mapGet_idxMap, mapGet_idxMap,
      if_pos (Nat.zero_le j), if_neg (show ¬ j + 1 ≤ j by omega), hnone]
  have hlenM : (idxMap 0 ((chunks.take j).map trimSpace)
      ++ idxMap (j + 1) ((chunks.drop (j + 1)).map trimSpace)).length = chunks.length - 1 := by
    rw [List.length_append, length_idxMap, length_idxMap, List.length_map, List.length_map,
      htlen, List.length_drop]
    omega
  unfold reassemble
  rw [hfold, hlenM, collect_none (chunks.length - 1) j _ (by omega) hget]
  rfl

/-- C2 witness: erasing the middle frame of a three-frame encoding yields
the empty string. -/
theorem c2_missing_chunk_witness :
    reassemble ([("00:abc").toList, ("01:def").toList, ("02:g").toList].eraseIdx 1) = [] :=
  c2_missing_chunk ("abcdefg").toList 6 30 10 _ 1
    (by decide) (by decide) (by decide) (by decide) (by decide) (by decide)

/-- C2 counterexample: the claim fails as stated when the removed frame is
the index-0 frame; the seeded `0 ↦ ""` entry masks the gap and reassembly
returns the remaining payload instead of the empty string. -/
theorem c2_missing_chunk_counterexample :
    CreateRecord ("ab").toList 4 30 10
      = some (Except.ok [("00:a").toList, ("01:b").toList]) ∧
    reassemble ([("00:a").toList, ("01:b").toList].eraseIdx 0) = ("b").toList ∧
    ("b").toList ≠ [] := by
  exact ⟨by decide, by decide, by decide⟩

/-- C4: the encoder does not terminate normally for every budget in the
documented range.  With `maxLineLength = 1` (accepted unchanged by the
`WithMaxLineLength` clamp) and the non-empty payload `"a"`, the first
iteration computes `max = 1 - 3 = -2` and the slice `buf[:max]` panics;
the fuelled model returns `none` for every fuel. -/
theorem c4_split_panics_on_tiny_line_budget :
    ∀ fuel : Nat, CreateRecord ("a").toList 1 15360 fuel = none := by
  intro fuel
  cases fuel with
  | zero => rfl
  | succ f => rfl

/-- C5: whenever the splitter produces frames, `CreateRecord` fails with the
invalid-input error exactly when the total length of the produced frames
exceeds `maxSize`, and within budget it returns exactly the produced frames
(the model's error value carries no frames at all). -/
theorem c5_budget_enforcement (jwt : List Char) (lineLength size : Int) (fuel : Nat)
    (lines : List (List Char)) (n : Nat)
    (hS : 1 ≤ size ∧ size ≤ 65270)
    (hsg : splitGo ⟨withMaxSize size, withMaxLineLength lineLength⟩ fuel 0 [] 0 jwt
      = some (lines, n)) :
    ((CreateRecord jwt lineLength size fuel = some (Except.error ()))
      ↔ (sumLen lines : Int) > size)
    ∧ ((sumLen lines : Int) ≤ size →
      CreateRecord jwt lineLength size fuel = some (Except.ok lines)) := by
  have hsum := splitGo_sum ⟨withMaxSize size, withMaxLineLength lineLength⟩ fuel 0 [] 0 jwt lines n hsg
  have hnil : sumLen ([] : List (List Char)) = 0 := rfl
  rw [hnil] at hsum
  have hsl : sumLen lines = n := by omega
  have hms : withMaxSize size = size := withMaxSize_eq hS.1 hS.2
  have hcr : CreateRecord jwt lineLength size fuel
      = if (n : Int) > size then some (Except.error ()) else some (Except.ok lines) := by
    simp only [CreateRecord]
    rw [hsg]
    simp only [hms]
  constructor
  · rw [hcr, hsl]
    constructor
    · intro h
      by_contra hgt
      rw [if_neg (by omega)] at h
      simp at h
    · intro h
      rw [if_pos h]
  · intro h
    rw [hsl] at h
    rw [hcr, if_neg (by omega)]

/-- C5 witness: the default-width split of a JWT-shaped payload against
`maxSize = 10` produces one 27-rune frame and fails with the invalid-input
error. -/
theorem c5_budget_enforcement_witness :
    CreateRecord ("header.payload.signature").toList 254 10 30 = some (Except.error ()) :=
  ((c5_budget_enforcement ("header.payload.signature").toList 254 10 30
    [("00:header.payload.signature").toList] 27 (by decide) (by decide)).1).mpr (by decide)

/-- C6: an internally contiguous chunk set reassembles to the concatenation
of its payloads whether its indices start at 0 or at 1. -/
theorem c6_index_base_tolerance (ps : List (List Char))
    (hp : ∀ p ∈ ps, ':' ∉ p) (htrim : ∀ p ∈ ps, trimSpace p = p)
    (hb : ps.length + 1 ≤ 2 ^ 63) :
    reassemble (mkFrames 0 ps) = ps.flatten ∧ reassemble (mkFrames 1 ps) = ps.flatten :=
  ⟨reassemble_mkFrames (by omega) hp htrim (by omega),
   reassemble_mkFrames (by omega) hp htrim (by omega)⟩

/-- C6 witness: the three-part JWT-shaped chunk set reassembles identically
from base 0 and from base 1. -/
theorem c6_index_base_tolerance_witness :
    reassemble (mkFrames 0 [("header").toList, (".payload.").toList, ("signature").toList])
      = ("header.payload.signature").toList ∧
    reassemble (mkFrames 1 [("header").toList, (".payload.").toList, ("signature").toList])
      = ("header.payload.signature").toList :=
  c6_index_base_tolerance [("header").toList, (".payload.").toList, ("signature").toList]
    (by decide) (by decide) (by decide)

lemma badLine_skip {l : List Char} (hbad : badLine l = true) :
    ∀ m : PartsMap, insertLine m l = m := by
  intro m
  unfold insertLine
  unfold badLine at hbad
  cases hsp : goSplit ':' l with
  | nil => simp [hsp]
  | cons a rest =>
    cases rest with
    | nil => simp [hsp]
    | cons b rest2 =>
      cases rest2 with
      | cons c rest3 => simp [hsp]
      | nil =>
        rw [hsp] at hbad
        simp only [Bool.not_eq_true'] at hbad
        have hex : ∃ c ∈ trimSpace a, isGoDigit c = false := by
          rcases List.all_eq_false.mp hbad with ⟨c, hc, hcd⟩
          exact ⟨c, hc, by simpa using hcd⟩
        have hneg : getIndexInt a = -1 := getIndexIntLoop_neg (trimSpace a) 0 hex
        simp [hsp, hneg]

lemma partsFold_filter_bad : ∀ L : List (List Char), ∀ m : PartsMap,
    List.foldl insertLine m (L.filter fun l => !(badLine l)) = List.foldl insertLine m L := by
  intro L
  induction L with
  | nil => intro m ; rfl
  | cons l ls ih =>
    intro m
    by_cases hbad : badLine l = true
    · rw [List.filter_cons_of_neg (by simp [hbad]), List.foldl_cons, badLine_skip hbad m]
      exact ih m
    · have hf : badLine l = false := by
        cases hv : badLine l with
        | false => rfl
        | true => exact absurd hv hbad
      rw [List.filter_cons_of_pos (by simp [hf]), List.foldl_cons, List.foldl_cons]
      exact ih (insertLine m l)

/-- C7: lines with zero colons, two or more colons, or a non-digit rune in
the index field are discarded without affecting reassembly: any list whose
non-malformed lines form a contiguous frame set (base 0 or 1) reassembles
to the concatenation of those frames' payloads. -/
theorem c7_malformed_line_tolerance (L : List (List Char)) (ps : List (List Char))
    (base : Nat) (hbase : base ≤ 1)
    (hp : ∀ p ∈ ps, ':' ∉ p) (htrim : ∀ p ∈ ps, trimSpace p = p)
    (hb : base + ps.length ≤ 2 ^ 63)
    (hfilter : L.filter (fun l => !(badLine l)) = mkFrames base ps) :
    reassemble L = ps.flatten := by
  have hfold : partsFold L = partsFold (mkFrames base ps) := by
    rw [← hfilter]
    exact (partsFold_filter_bad L [(0, [])]).symm
  have hre : reassemble L = reassemble (mkFrames base ps) := by
    unfold reassemble
    rw [hfold]
  rw [hre]
  exact reassemble_mkFrames hbase hp htrim hb

/-- C7 witness: interleaving a colon-less line, a two-colon line and a
non-numeric-index line into a valid base-0 set leaves the result intact. -/
theorem c7_malformed_line_tolerance_witness :
    reassemble [("garbage").toList, ("00:header").toList, ("01:p:ayload").toList,
      ("01:.payload.").toList, ("xx:junk").toList, ("02:signature").toList]
      = ("header.payload.signature").toList :=
  c7_malformed_line_tolerance
    [("garbage").toList, ("00:header").toList, ("01:p:ayload").toList,
      ("01:.payload.").toList, ("xx:junk").toList, ("02:signature").toList]
    [("header").toList, (".payload.").toList, ("signature").toList] 0
    (by decide) (by decide) (by decide) (by decide) (by decide)

/-- C10: a line with exactly one colon whose index field is empty or all
whitespace is not discarded: the field parses as 0 and the trimmed payload
is stored at index 0, overwriting the seeded entry and any payload an
earlier line put there. -/
theorem c10_blank_index_parses_as_zero (ws p : List Char) (lines : List (List Char))
    (hws : ∀ c ∈ ws, goSpace c = true) (hp : ':' ∉ p) :
    getIndexInt ws = 0 ∧
    partsFold (lines ++ [ws ++ ':' :: p])
      = mapInsert 0 (trimSpace p) (partsFold lines) ∧
    mapGet 0 (partsFold (lines ++ [ws ++ ':' :: p])) = some (trimSpace p) := by
  have hwscolon : ':' ∉ ws := by
    intro hmem
    have hsp := hws ':' hmem
    simp [goSpace] at hsp
  have hidx : getIndexInt ws = 0 := by
    unfold getIndexInt
    rw [trimSpace_eq_nil hws]
    rfl
  have hins : insertLine (partsFold lines) (ws ++ ':' :: p)
      = mapInsert 0 (trimSpace p) (partsFold lines) := by
    unfold insertLine
    rw [goSplit_frame hwscolon hp]
    simp [hidx]
  have hfold : partsFold (lines ++ [ws ++ ':' :: p])
      = insertLine (partsFold lines) (ws ++ ':' :: p) := by
    unfold partsFold
    rw [List.foldl_append]
    rfl
  refine ⟨hidx, by rw [hfold, hins], ?_⟩
  rw [hfold, hins, mapGet_mapInsert]
  simp

/-- C10 witness: the line `"  :payload"` overwrites an earlier index-0
payload with `"payload"`. -/
theorem c10_blank_index_parses_as_zero_witness :
    getIndexInt ("  ").toList = 0 ∧
    partsFold [("0:earlier").toList, (("  ").toList ++ ':' :: ("payload").toList)]
      = mapInsert 0 (trimSpace ("payload").toList) (partsFold [("0:earlier").toList]) ∧
    mapGet 0 (partsFold [("0:earlier").toList, (("  ").toList ++ ':' :: ("payload").toList)])
      = some (trimSpace ("payload").toList) :=
  c10_blank_index_parses_as_zero ("  ").toList ("payload").toList [("0:earlier").toList]
    (by decide) (by decide)

/-- C8: `reassemble` is total on arbitrary input.  The panic-explicit model
`reassembleP`, in which every partial Go operation (the `segments[0]` and
`segments[1]` index expressions) is a guarded lookup, never returns the
panic marker and agrees with `reassemble` on every input; every detected
inconsistency ends in the ordinary empty-string return, not a panic. -/
theorem c8_reassemble_total (lines : List (List Char)) :
    reassembleP lines = some (reassemble lines) := by
  have h : ∀ L : List (List Char), ∀ m : PartsMap,
      partsP m L = some (L.foldl insertLine m) := by
    intro L
    induction L with
    | nil => intro m ; rfl
    | cons l ls ih =>
      intro m
      have hstep : insertLineP m l = some (insertLine m l) := by
        unfold insertLineP insertLine
        cases hsp : goSplit ':' l with
        | nil => simp [hsp]
        | cons a rest =>
          cases rest with
          | nil => simp [hsp]
          | cons b rest2 =>
            cases rest2 with
            | cons c rest3 => simp [hsp]
            | nil =>
              simp only [hsp, List.length_cons, List.length_nil]
              norm_num
              split <;> rfl
      rw [partsP, hstep]
      exact ih (insertLine m l)
  unfold reassembleP
  rw [h lines [(0, [])]]
  rfl

/-! ### Permutation invariance machinery (C3) -/

/-- Two parts maps that agree as finite maps: same number of keys and the
same lookups.  The decoder's walk only observes these two features. -/
def MapEquiv (m1 m2 : PartsMap) : Prop :=
  m1.length = m2.length ∧ ∀ k, mapGet k m1 = mapGet k m2

lemma mapEquiv_refl (m : PartsMap) : MapEquiv m m := ⟨rfl, fun _ => rfl⟩

lemma mapEquiv_trans {m1 m2 m3 : PartsMap} (h1 : MapEquiv m1 m2) (h2 : MapEquiv m2 m3) :
    MapEquiv m1 m3 :=
  ⟨h1.1.trans h2.1, fun k => (h1.2 k).trans (h2.2 k)⟩

lemma mapInsert_equiv {m1 m2 : PartsMap} (k : Nat) (v : List Char)
    (h : MapEquiv m1 m2) : MapEquiv (mapInsert k v m1) (mapInsert k v m2) := by
  obtain ⟨hl, hg⟩ := h
  constructor
  · rw [length_mapInsert, length_mapInsert, hl, hg k]
  · intro q
    rw [mapGet_mapInsert, mapGet_mapInsert, hg q]

lemma insertLine_eq_parse (m : PartsMap) (l : List Char) :
    insertLine m l =
      match parseLine l with
      | none => m
      | some (i, v) => mapInsert i v m := by
  unfold insertLine parseLine
  cases hsp : goSplit ':' l with
  | nil => rfl
  | cons a rest =>
    cases rest with
    | nil => rfl
    | cons b rest2 =>
      cases rest2 with
      | cons c rest3 => rfl
      | nil =>
        by_cases hneg : getIndexInt a < 0 <;> simp [hneg]

lemma insertLine_equiv {m1 m2 : PartsMap} (l : List Char)
    (h : MapEquiv m1 m2) : MapEquiv (insertLine m1 l) (insertLine m2 l) := by
  rw [insertLine_eq_parse, insertLine_eq_parse]
  cases parseLine l with
  | none => exact h
  | some p => exact mapInsert_equiv p.1 p.2 h

lemma fold_equiv {m1 m2 : PartsMap} (L : List (List Char))
    (h : MapEquiv m1 m2) :
    MapEquiv (L.foldl insertLine m1) (L.foldl insertLine m2) := by
  induction L generalizing m1 m2 with
  | nil => exact h
  | cons l ls ih =>
    rw [List.foldl_cons, List.foldl_cons]
    exact ih (insertLine_equiv l h)

lemma mapInsert_comm {k1 k2 : Nat} (hk : k1 ≠ k2) (v1 v2 : List Char) (m : PartsMap) :
    MapEquiv (mapInsert k1 v1 (mapInsert k2 v2 m)) (mapInsert k2 v2 (mapInsert k1 v1 m)) := by
  constructor
  · rw [length_mapInsert, length_mapInsert, length_mapInsert, length_mapInsert,
      mapGet_mapInsert, mapGet_mapInsert, if_neg hk, if_neg (Ne.symm hk)]
    by_cases h1 : (mapGet k1 m).isSome <;> by_cases h2 : (mapGet k2 m).isSome <;>
      simp [h1, h2]
  · intro q
    rw [mapGet_mapInsert, mapGet_mapInsert, mapGet_mapInsert, mapGet_mapInsert]
    by_cases hq1 : q = k1 <;> by_cases hq2 : q = k2
    · exact absurd (hq1.symm.trans hq2) hk
    · simp [hq1, hq2, hk]
    · simp [hq1, hq2, Ne.symm hk]
    · simp [hq1, hq2]

lemma insertLine_comm (x y : List Char) (m : PartsMap)
    (hd : ∀ ix iy, lineIndex x = some ix → lineIndex y = some iy → ix ≠ iy) :
    MapEquiv (insertLine (insertLine m x) y) (insertLine (insertLine m y) x) := by
  rw [insertLine_eq_parse m x, insertLine_eq_parse m y,
    insertLine_eq_parse (match parseLine x with | none => m | some (i, v) => mapInsert i v m) y,
    insertLine_eq_parse (match parseLine y with | none => m | some (i, v) => mapInsert i v m) x]
  cases hx : parseLine x with
  | none => cases hy : parseLine y with
    | none => exact mapEquiv_refl _
    | some py => exact mapEquiv_refl _
  | some px =>
    cases hy : parseLine y with
    | none => exact mapEquiv_refl _
    | some py =>
      obtain ⟨ix, vx⟩ := px
      obtain ⟨iy, vy⟩ := py
      have hne : ix ≠ iy := hd ix iy (by rw [lineIndex, hx] ; rfl) (by rw [lineIndex, hy] ; rfl)
      exact mapInsert_comm (Ne.symm hne) vy vx m

lemma nodup_tail_filterMap {x : List Char} {ls : List (List Char)}
    (hd : ((x :: ls).filterMap lineIndex).Nodup) : (ls.filterMap lineIndex).Nodup := by
  rw [List.filterMap_cons] at hd
  cases hix : lineIndex x with
  | none => rw [hix] at hd ; exact hd
  | some i =>
    rw [hix] at hd
    exact hd.of_cons

lemma fold_perm_equiv {L1 L2 : List (List Char)} (hperm : L1.Perm L2) :
    (L1.filterMap lineIndex).Nodup →
    ∀ m : PartsMap, MapEquiv (L1.foldl insertLine m) (L2.foldl insertLine m) := by
  induction hperm with
  | nil => intro _ m ; exact mapEquiv_refl _
  | cons x h ih =>
    intro hd m
    rw [List.foldl_cons, List.foldl_cons]
    exact ih (nodup_tail_filterMap hd) (insertLine m x)
  | swap x y l =>
    intro hd m
    rw [List.foldl_cons, List.foldl_cons, List.foldl_cons, List.foldl_cons]
    apply fold_equiv
    apply insertLine_comm
    intro iy ix hy hx
    rw [List.filterMap_cons, List.filterMap_cons, hy, hx] at hd
    intro he
    subst he
    exact (List.nodup_cons.mp hd).1 (by simp)
  | trans h1 h2 ih1 ih2 =>
    intro hd m
    have hd2 := (h1.filterMap lineIndex).nodup hd
    exact mapEquiv_trans (ih1 hd m) (ih2 hd2 m)

lemma collect_equiv {m1 m2 : PartsMap} (h : MapEquiv m1 m2) :
    ∀ k, collect m1 k = collect m2 k := by
  intro k
  induction k with
  | zero => rfl
  | succ k ih => rw [collect, collect, ih, h.2 k]

/-- C3: reassembly is invariant under permutation of the input lines
provided no two accepted lines carry the same parsed index (with duplicate
indices, last-write-wins makes the result order-dependent). -/
theorem c3_reassemble_perm_invariant (L1 L2 : List (List Char))
    (hperm : L1.Perm L2) (hd : (L1.filterMap lineIndex).Nodup) :
    reassemble L1 = reassemble L2 := by
  have he : MapEquiv (partsFold L1) (partsFold L2) := fold_perm_equiv hperm hd [(0, [])]
  unfold reassemble
  unfold partsFold at he ⊢
  rw [he.1, collect_equiv he]

/-- C3 witness: swapping two distinct-index lines leaves the result
unchanged. -/
theorem c3_reassemble_perm_invariant_witness :
    reassemble [("0:a").toList, ("1:b").toList]
      = reassemble [("1:b").toList, ("0:a").toList] :=
  c3_reassemble_perm_invariant [("0:a").toList, ("1:b").toList]
    [("1:b").toList, ("0:a").toList]
    (List.Perm.swap (("1:b").toList) (("0:a").toList) []) (by decide)

/-- C3 counterexample: with two lines sharing index 0, last-write-wins makes
the reassembled string depend on the order, so the claim fails as stated. -/
theorem c3_reassemble_perm_invariant_counterexample :
    ([("0:a").toList, ("0:b").toList]).Perm [("0:b").toList, ("0:a").toList] ∧
    reassemble [("0:a").toList, ("0:b").toList] = ("b").toList ∧
    reassemble [("0:b").toList, ("0:a").toList] = ("a").toList ∧
    ("b").toList ≠ ("a").toList :=
  ⟨List.Perm.swap (("0:b").toList) (("0:a").toList) [], by decide, by decide, by decide⟩
